import Mathlib

/-!
# Verification of the Dijkstra shortest-path demo

Shallow embedding of `Source.cpp` (single-file Dijkstra demo over a dense
cost matrix stored as a flattened vector), together with proofs of the
specification's testable properties.

Modelling conventions:
* C++ `vector<int>` becomes `List Int`; reads through `List.getD` (every
  in-algorithm access is in bounds, so the default is never observable there).
* `INT_MAX` is the concrete value `2147483647`.  The algorithm's arithmetic
  is modelled exactly over `Int`; the separate `wrap32` definitions model the
  conventional two's-complement reading of 32-bit `int` overflow.
* The `std::set<int, ltDist>` frontier is modelled as a `List Nat` of member
  vertices; extraction of `*q.begin()` is `popMin`, the member minimising the
  comparator key `(dist[v], v)` — exactly the order `ltDist` induces, since a
  member's `dist` entry never changes while it is in the set.
* The `while` loop is a fueled recursion; sufficiency of the fuel (the loop
  really empties the frontier) is proved, not assumed.
-/

/-- The dense graph: `n` is the global `number_of_nodes`, `mat` the global
flattened `vector<int> graph` (row-major, `-1` = no edge). -/
structure Graph where
  n : Nat
  mat : List Int
  deriving Repr, DecidableEq

/-- `INT_MAX` from `<climits>`, used as the infinity sentinel (line 135). -/
def INT_MAX : Int := 2147483647

/-- `GraphGet(u, v)` (lines 67–70): unchecked read of `graph[n*u + v]`.
The C++ performs no bounds check; an index outside the backing store is
undefined behaviour, modelled by the `-1` default of `getD`. -/
def GraphGet (g : Graph) (u v : Nat) : Int :=
  g.mat.getD (g.n * u + v) (-1)

/-- `GraphSet(u, v, c)` (lines 84–90): unchecked write of `graph[n*u + v]`. -/
def GraphSet (g : Graph) (u v : Nat) (c : Int) : Graph :=
  { g with mat := g.mat.set (g.n * u + v) c }

/-- The linear `GraphSet(i, c)` overload (lines 105–108) used by the loader. -/
def GraphSetLinear (g : Graph) (i : Nat) (c : Int) : Graph :=
  { g with mat := g.mat.set i c }

/-- The comparator `ltDist` (lines 116–121):
`make_pair(dist[u], u) < make_pair(dist[v], v)`. -/
def ltDist (dist : List Int) (u v : Nat) : Bool :=
  decide (dist.getD u 0 < dist.getD v 0 ∨
    (dist.getD u 0 = dist.getD v 0 ∧ u < v))

/-- The mutable state of `dijkstra()`: the global `dist` and `previous_node`
vectors and the local frontier set `q`. -/
structure DState where
  dist : List Int
  previous_node : List Int
  q : List Nat
  deriving Repr, DecidableEq

/-- `*q.begin()` (line 156): the frontier member minimal for `ltDist`. -/
def popMin (dist : List Int) (q : List Nat) : Nat :=
  match q with
  | [] => 0
  | x :: xs => xs.foldl (fun a b => if ltDist dist b a then b else a) x

/-- One body of the inner `for (v ...)` loop (lines 159–196): relax the edge
`u → v` if it exists and improves `dist[v]`. -/
def relaxStep (g : Graph) (u v : Nat) (st : DState) : DState :=
  if GraphGet g u v ≠ -1 then
    if st.dist.getD u 0 + GraphGet g u v < st.dist.getD v 0 then
      { dist := st.dist.set v (st.dist.getD u 0 + GraphGet g u v),
        previous_node := st.previous_node.set v (Int.ofNat u),
        q := v :: (if st.q.contains v then st.q.erase v else st.q) }
    else st
  else st

/-- The inner `for (v = 0; v < number_of_nodes; v++)` loop, `k` iterations
remaining, next index `v`. -/
def relaxLoop (g : Graph) (u : Nat) : Nat → Nat → DState → DState
  | 0, _, st => st
  | k + 1, v, st => relaxLoop g u k (v + 1) (relaxStep g u v st)

/-- The `while (!q.empty())` loop (lines 151–197), with explicit fuel. -/
def dijkstraLoop (g : Graph) : Nat → DState → DState
  | 0, st => st
  | fuel + 1, st =>
    match st.q with
    | [] => st
    | _ :: _ =>
      let u := popMin st.dist st.q
      dijkstraLoop g fuel
        (relaxLoop g u g.n 0 { st with q := st.q.erase u })

/-- Initialisation (lines 133–147): all `dist` entries `INT_MAX`, all
`previous_node` entries `-1`, then `dist[s] = 0` and `q = {s}`. -/
def dijkstraInit (n s : Nat) : DState :=
  { dist := (List.replicate n INT_MAX).set s 0,
    previous_node := List.replicate n (-1),
    q := [s] }

/-- Fuel that provably dominates the loop's decreasing measure. -/
def dijkstraFuel (g : Graph) : Nat :=
  2 * g.n * 2147483647 + g.n + 2

/-- `dijkstra(s)` (lines 123–198). -/
def dijkstra (g : Graph) (s : Nat) : DState :=
  dijkstraLoop g (dijkstraFuel g) (dijkstraInit g.n s)

/-- Well-formed backing store: the resize in `main` (line 216). -/
def Graph.WF (g : Graph) : Prop := g.mat.length = g.n * g.n

instance (g : Graph) : Decidable g.WF := by
  unfold Graph.WF; infer_instance

/-- All stored costs are non-negative or the no-edge sentinel `-1`. -/
def NonNeg (g : Graph) : Prop := ∀ c ∈ g.mat, c = -1 ∨ 0 ≤ c

instance (g : Graph) : Decidable (NonNeg g) := by
  unfold NonNeg; infer_instance

/-- One directed hop: a real (non-sentinel) edge into a valid vertex. -/
def stepRel (g : Graph) (a b : Nat) : Prop := b < g.n ∧ GraphGet g a b ≠ -1

/-- Graph reachability from `s`. -/
def Reach (g : Graph) (s v : Nat) : Prop := Relation.ReflTransGen (stepRel g) s v

/-- Source selection in `main` (lines 233–241): an out-of-range request is
clamped to `0` with a diagnostic; there is no failure path. -/
def selectSource (n : Nat) (src : Int) : Nat :=
  if src < 0 ∨ (n : Int) ≤ src then 0 else src.toNat

/-- The `dist`/`previous_node` tables right after the resizes in `main`
(lines 215–217): `vector::resize` value-initialises the new entries to `0`. -/
def resizedTables (n : Nat) : List Int × List Int :=
  (List.replicate n 0, List.replicate n 0)

/-- `main`'s compute path: clamp the requested source, then run `dijkstra`. -/
def mainRun (g : Graph) (src : Int) : DState :=
  dijkstra g (selectSource g.n src)

/-- The backing store right after `graph.resize(n*n)` (line 216):
`vector<int>::resize` value-initialises every new entry to `0`. -/
def createGraph (n : Nat) : List Int := List.replicate (n * n) 0

/-- The read loop of `main` (lines 219–229): write the stream's values into
successive flat slots, stopping early at end of stream. -/
def loadAux (vals : List Int) : Nat → Nat → List Int → List Int
  | 0, _, gmat => gmat
  | k + 1, i, gmat =>
    match vals.get? i with
    | none => gmat
    | some c => loadAux vals k (i + 1) (gmat.set i c)

/-- Loading a (possibly truncated) serialized matrix into a fresh store. -/
def loadGraph (n : Nat) (vals : List Int) : List Int :=
  loadAux vals (n * n) 0 (createGraph n)

/-- Two's-complement 32-bit wrap-around (`2147483648 = 2^31` and
`4294967296 = 2^32`), the conventional concrete reading of signed `int`
overflow (which ISO C++ leaves undefined). -/
def wrap32 (x : Int) : Int := (x + 2147483648) % 4294967296 - 2147483648

/-- The relaxation candidate `dist[u] + GraphGet(u, v)` of line 170, under
two's-complement 32-bit arithmetic. -/
def relaxCandidate (du c : Int) : Int := wrap32 (du + c)

/-- The predecessor chain of the spec (§4.2 path reconstruction): starting at
`v`, repeatedly follow `previous_node` until the source is reached.  The list
collects the visited vertices (`v` first, `s` last) and the integer is the sum
of the costs of the traversed edges. -/
inductive PrevPath (g : Graph) (prev : List Int) (s : Nat) :
    Nat → List Nat → Int → Prop
  | refl : PrevPath g prev s s [s] 0
  | step {v u : Nat} {l : List Nat} {sum : Int} :
      v ≠ s →
      prev.getD v (-1) = Int.ofNat u →
      GraphGet g u v ≠ -1 →
      PrevPath g prev s u l sum →
      PrevPath g prev s v (v :: l) (sum + GraphGet g u v)

/-- A predecessor chain strengthened with the in-flight facts the loop
maintains about it: vertex bounds, finiteness of the distances involved, and
the per-hop inequality `dist[u] + cost ≤ dist[v]` (equality when the hop is
recorded, preserved as `dist[u]` later decreases). -/
inductive DChain (g : Graph) (dist prev : List Int) (s : Nat) :
    Nat → List Nat → Int → Prop
  | refl : DChain g dist prev s s [s] 0
  | step {v u : Nat} {l : List Nat} {sum : Int} :
      v ≠ s →
      v < g.n →
      u < g.n →
      prev.getD v (-1) = Int.ofNat u →
      GraphGet g u v ≠ -1 →
      dist.getD v 0 ≠ INT_MAX →
      dist.getD u 0 + GraphGet g u v ≤ dist.getD v 0 →
      DChain g dist prev s u l sum →
      DChain g dist prev s v (v :: l) (sum + GraphGet g u v)

/-- The loop invariant of `dijkstra`'s `while` loop. -/
structure LoopInv (g : Graph) (s : Nat) (st : DState) : Prop where
  hdl : st.dist.length = g.n
  hpl : st.previous_node.length = g.n
  hqlt : ∀ v ∈ st.q, v < g.n
  hnd : st.q.Nodup
  hb : ∀ v < g.n, 0 ≤ st.dist.getD v 0 ∧ st.dist.getD v 0 ≤ INT_MAX
  hs0 : st.dist.getD s 0 = 0
  hps : st.previous_node.getD s 0 = -1
  hrel : ∀ u < g.n, u ∉ st.q → st.dist.getD u 0 ≠ INT_MAX →
    ∀ v < g.n, GraphGet g u v ≠ -1 →
      st.dist.getD v 0 ≤ st.dist.getD u 0 + GraphGet g u v
  hchain : ∀ v < g.n, st.dist.getD v 0 ≠ INT_MAX → v ≠ s →
    ∃ l sum, DChain g st.dist st.previous_node s v l sum
  hunreach : ∀ v < g.n, ¬ Reach g s v →
    st.dist.getD v 0 = INT_MAX ∧ st.previous_node.getD v 0 = -1 ∧ v ∉ st.q
  hqfin : ∀ v ∈ st.q, st.dist.getD v 0 ≠ INT_MAX
  hqreach : ∀ v ∈ st.q, Reach g s v

/-- The invariant of the inner `for` loop while relaxing the edges out of the
just-extracted vertex `u`; `j` is the next column index to be examined. -/
structure InnerInv (g : Graph) (s u : Nat) (j : Nat) (st : DState) : Prop where
  hdl : st.dist.length = g.n
  hpl : st.previous_node.length = g.n
  hqlt : ∀ v ∈ st.q, v < g.n
  hnd : st.q.Nodup
  hb : ∀ v < g.n, 0 ≤ st.dist.getD v 0 ∧ st.dist.getD v 0 ≤ INT_MAX
  hs0 : st.dist.getD s 0 = 0
  hps : st.previous_node.getD s 0 = -1
  hrelne : ∀ w < g.n, w ≠ u → w ∉ st.q → st.dist.getD w 0 ≠ INT_MAX →
    ∀ v < g.n, GraphGet g w v ≠ -1 →
      st.dist.getD v 0 ≤ st.dist.getD w 0 + GraphGet g w v
  hchain : ∀ v < g.n, st.dist.getD v 0 ≠ INT_MAX → v ≠ s →
    ∃ l sum, DChain g st.dist st.previous_node s v l sum
  hunreach : ∀ v < g.n, ¬ Reach g s v →
    st.dist.getD v 0 = INT_MAX ∧ st.previous_node.getD v 0 = -1 ∧ v ∉ st.q
  hqfin : ∀ v ∈ st.q, st.dist.getD v 0 ≠ INT_MAX
  hqreach : ∀ v ∈ st.q, Reach g s v
  hun : u < g.n
  hufin : st.dist.getD u 0 ≠ INT_MAX
  hureach : Reach g s u
  hunotq : u ∉ st.q
  hupart : ∀ x < j, GraphGet g u x ≠ -1 →
    st.dist.getD x 0 ≤ st.dist.getD u 0 + GraphGet g u x

/-- Sum of the (non-negative) distance entries, the main loop's potential. -/
def phi (st : DState) : Nat := (st.dist.map Int.toNat).sum

/-- Decreasing measure of the `while` loop: every iteration either lowers
some distance entry (at most doubling the frontier hit) or pops a vertex. -/
def meas (st : DState) : Nat := 2 * phi st + st.q.length

section ListHelpers

theorem getD_set_ne (l : List Int) (i j : Nat) (x d : Int) (h : i ≠ j) :
    (l.set i x).getD j d = l.getD j d := by
  induction l generalizing i j with
  | nil => simp
  | cons a t ih =>
    cases i with
    | zero =>
      cases j with
      | zero => exact absurd rfl h
      | succ j => simp [List.set, List.getD]
    | succ i =>
      cases j with
      | zero => simp [List.set, List.getD]
      | succ j =>
        simp only [List.set, List.getD_cons_succ]
        exact ih i j (fun hij => h (by omega))

theorem getD_set_self (l : List Int) (i : Nat) (x d : Int) (h : i < l.length) :
    (l.set i x).getD i d = x := by
  induction l generalizing i with
  | nil => simp at h
  | cons a t ih =>
    cases i with
    | zero => simp [List.set, List.getD]
    | succ i =>
      simp only [List.set, List.getD_cons_succ]
      exact ih i (by simpa using h)

theorem getD_replicate (n j : Nat) (a d : Int) (h : j < n) :
    (List.replicate n a).getD j d = a := by
  induction n generalizing j with
  | zero => omega
  | succ n ih =>
    cases j with
    | zero => simp [List.replicate, List.getD]
    | succ j =>
      simp only [List.replicate, List.getD_cons_succ]
      exact ih j (by omega)

theorem getD_eq_default (l : List Int) (j : Nat) (d : Int) (h : l.length ≤ j) :
    l.getD j d = d := by
  induction l generalizing j with
  | nil => simp [List.getD]
  | cons a t ih =>
    cases j with
    | zero => simp at h
    | succ j =>
      simp only [List.getD_cons_succ]
      exact ih j (by simpa using h)

theorem mem_of_getD_ne (l : List Int) (j : Nat) (d : Int)
    (h : l.getD j d ≠ d) : l.getD j d ∈ l := by
  induction l generalizing j with
  | nil => simp [List.getD] at h
  | cons a t ih =>
    cases j with
    | zero => simp [List.getD]
    | succ j =>
      simp only [List.getD_cons_succ] at h ⊢
      exact List.mem_cons_of_mem a (ih j h)

end ListHelpers

section SanityChecks

/-- Spec §8 Scenario A: `0→1` cost 1, `1→2` cost 1, `0→2` cost 5. -/
example :
    dijkstra ⟨3, [-1, 1, 5, -1, -1, 1, -1, -1, -1]⟩ 0 =
      ⟨[0, 1, 2], [-1, 0, 1], []⟩ := by decide

/-- Spec §8 Scenario B: single isolated vertex. -/
example : dijkstra ⟨1, [-1]⟩ 0 = ⟨[0], [-1], []⟩ := by decide

/-- Spec §8 Scenario C: two vertices, no edges. -/
example : dijkstra ⟨2, [-1, -1, -1, -1]⟩ 0 = ⟨[0, INT_MAX], [-1, -1], []⟩ := by
  decide

/-- Spec §8 Scenario D: `0→1` cost 2, `0→2` cost 1, `1→2` cost 1. -/
example :
    dijkstra ⟨3, [-1, 2, 1, -1, -1, 1, -1, -1, -1]⟩ 0 =
      ⟨[0, 2, 1], [-1, 0, 0], []⟩ := by decide

end SanityChecks

section GraphStoreAndLoader

theorem loadAux_getD_of_le (vals : List Int) (k : Nat) :
    ∀ (i j : Nat) (gmat : List Int) (d : Int), vals.length ≤ j →
      (loadAux vals k i gmat).getD j d = gmat.getD j d := by
  induction k with
  | zero => intro i j gmat d _; rfl
  | succ k ih =>
    intro i j gmat d hj
    unfold loadAux
    cases hv : vals.get? i with
    | none => rfl
    | some c =>
      rw [ih (i + 1) j _ d hj]
      have hi : i < vals.length := by
        by_contra hle
        rw [List.get?_eq_none.mpr (by omega)] at hv
        exact Option.noConfusion hv
      exact getD_set_ne _ _ _ _ _ (by omega)

theorem createGraph_getD (n i : Nat) (h : i < n * n) :
    (createGraph n).getD i (-1) = 0 :=
  getD_replicate _ _ _ _ h

end GraphStoreAndLoader

section PopMinTheory

theorem ltDist_eq_true (dist : List Int) (u v : Nat) :
    ltDist dist u v = true ↔
      (dist.getD u 0 < dist.getD v 0 ∨
        (dist.getD u 0 = dist.getD v 0 ∧ u < v)) := by
  simp [ltDist]

theorem ltDist_eq_false (dist : List Int) (u v : Nat) :
    ltDist dist u v = false ↔
      ¬ (dist.getD u 0 < dist.getD v 0 ∨
        (dist.getD u 0 = dist.getD v 0 ∧ u < v)) := by
  simp [ltDist]

theorem foldl_pick_spec (dist : List Int) :
    ∀ (xs : List Nat) (a : Nat),
      (List.foldl (fun a b => if ltDist dist b a then b else a) a xs = a ∨
        List.foldl (fun a b => if ltDist dist b a then b else a) a xs ∈ xs) ∧
      ∀ y, (y = a ∨ y ∈ xs) →
        ltDist dist y
          (List.foldl (fun a b => if ltDist dist b a then b else a) a xs) =
          false := by
  intro xs
  induction xs with
  | nil =>
    intro a
    refine ⟨Or.inl rfl, ?_⟩
    rintro y (rfl | h)
    · simp only [List.foldl_nil]
      rw [ltDist_eq_false]; omega
    · cases h
  | cons b t ih =>
    intro a
    simp only [List.foldl_cons]
    obtain ⟨hmem, hmin⟩ := ih (if ltDist dist b a then b else a)
    by_cases hba : ltDist dist b a = true
    · rw [if_pos hba] at hmem hmin ⊢
      rw [ltDist_eq_true] at hba
      constructor
      · rcases hmem with h | h
        · right; rw [h]; exact List.mem_cons_self b t
        · exact Or.inr (List.mem_cons_of_mem b h)
      · rintro y (rfl | hy)
        · have hb := hmin b (Or.inl rfl)
          rw [ltDist_eq_false] at hb ⊢
          omega
        · exact hmin y (by
            rcases List.mem_cons.mp hy with rfl | h
            · exact Or.inl rfl
            · exact Or.inr h)
    · rw [if_neg hba] at hmem hmin ⊢
      rw [Bool.not_eq_true, ltDist_eq_false] at hba
      constructor
      · rcases hmem with h | h
        · exact Or.inl h
        · exact Or.inr (List.mem_cons_of_mem b h)
      · rintro y (rfl | hy)
        · exact hmin y (Or.inl rfl)
        · rcases List.mem_cons.mp hy with rfl | h
          · have ha := hmin a (Or.inl rfl)
            rw [ltDist_eq_false] at ha ⊢
            omega
          · exact hmin y (Or.inr h)

theorem popMin_mem (dist : List Int) (q : List Nat) (hq : q ≠ []) :
    popMin dist q ∈ q := by
  cases q with
  | nil => exact absurd rfl hq
  | cons x xs =>
    rcases (foldl_pick_spec dist xs x).1 with h | h
    · rw [popMin, h]; exact List.mem_cons_self x xs
    · exact List.mem_cons_of_mem x h

theorem popMin_not_lt (dist : List Int) (q : List Nat) (y : Nat)
    (hy : y ∈ q) : ltDist dist y (popMin dist q) = false := by
  cases q with
  | nil => cases hy
  | cons x xs =>
    rcases List.mem_cons.mp hy with rfl | h
    · exact (foldl_pick_spec dist xs y).2 y (Or.inl rfl)
    · exact (foldl_pick_spec dist xs x).2 y (Or.inr h)

end PopMinTheory

section ChainTheory

theorem cost_mem_of_edge (g : Graph) (u v : Nat) (h : GraphGet g u v ≠ -1) :
    GraphGet g u v ∈ g.mat :=
  mem_of_getD_ne _ _ _ h

theorem cost_nonneg (g : Graph) (hnn : NonNeg g) (u v : Nat)
    (h : GraphGet g u v ≠ -1) : 0 ≤ GraphGet g u v := by
  rcases hnn _ (cost_mem_of_edge g u v h) with hc | hc
  · exact absurd hc h
  · exact hc

theorem DChain.head_cons {g : Graph} {dist prev : List Int} {s v : Nat}
    {l : List Nat} {sum : Int} (h : DChain g dist prev s v l sum) :
    ∃ t, l = v :: t := by
  cases h with
  | refl => exact ⟨[], rfl⟩
  | step _ _ _ _ _ _ _ tail => exact ⟨_, rfl⟩

theorem DChain.mem_head {g : Graph} {dist prev : List Int} {s v : Nat}
    {l : List Nat} {sum : Int} (h : DChain g dist prev s v l sum) : v ∈ l := by
  obtain ⟨t, rfl⟩ := h.head_cons
  exact List.mem_cons_self v t

theorem DChain.mem_lt {g : Graph} {dist prev : List Int} {s : Nat}
    (hs : s < g.n) {v : Nat} {l : List Nat} {sum : Int}
    (h : DChain g dist prev s v l sum) : ∀ x ∈ l, x < g.n := by
  induction h with
  | refl =>
    intro x hx
    rcases List.mem_singleton.mp hx with rfl
    exact hs
  | step hvs hvn hun hprev hedge hfin hle tail ih =>
    intro x hx
    rcases List.mem_cons.mp hx with rfl | hx
    · exact hvn
    · exact ih x hx

theorem DChain.dist_le_head {g : Graph} (hnn : NonNeg g)
    {dist prev : List Int} {s v : Nat} {l : List Nat} {sum : Int}
    (h : DChain g dist prev s v l sum) :
    ∀ x ∈ l, dist.getD x 0 ≤ dist.getD v 0 := by
  induction h with
  | refl =>
    intro x hx
    rcases List.mem_singleton.mp hx with rfl
    exact le_refl _
  | step hvs hvn hun hprev hedge hfin hle tail ih =>
    intro x hx
    rcases List.mem_cons.mp hx with rfl | hx
    · exact le_refl _
    · have hc := cost_nonneg g hnn _ _ (by assumption)
      have := ih x hx
      omega

theorem DChain.unique {g : Graph} {dist prev : List Int} {s v : Nat}
    {l₁ : List Nat} {s₁ : Int} (h₁ : DChain g dist prev s v l₁ s₁) :
    ∀ {l₂ : List Nat} {s₂ : Int}, DChain g dist prev s v l₂ s₂ →
      l₁ = l₂ ∧ s₁ = s₂ := by
  induction h₁ with
  | refl =>
    intro l₂ s₂ h₂
    cases h₂ with
    | refl => exact ⟨rfl, rfl⟩
    | step hvs => exact absurd rfl hvs
  | step hvs hvn hun hprev hedge hfin hle tail ih =>
    intro l₂ s₂ h₂
    cases h₂ with
    | refl => exact absurd rfl hvs
    | step hvs2 hvn2 hun2 hprev2 hedge2 hfin2 hle2 tail2 =>
      have hu : _ = _ := Int.ofNat.inj (hprev.symm.trans hprev2)
      subst hu
      obtain ⟨rfl, rfl⟩ := ih tail2
      exact ⟨rfl, rfl⟩

theorem DChain.suffix_chain {g : Graph} {dist prev : List Int} {s v : Nat}
    {l : List Nat} {sum : Int} (h : DChain g dist prev s v l sum) :
    ∀ x ∈ l, ∃ l₂ s₂, DChain g dist prev s x l₂ s₂ ∧ l₂.length ≤ l.length ∧
      (x ≠ v → l₂.length < l.length) := by
  induction h with
  | refl =>
    intro x hx
    rcases List.mem_singleton.mp hx with rfl
    exact ⟨[x], 0, DChain.refl, le_refl _, fun h => absurd rfl h⟩
  | step hvs hvn hun hprev hedge hfin hle tail ih =>
    intro x hx
    rcases List.mem_cons.mp hx with rfl | hx
    · exact ⟨_, _, DChain.step hvs hvn hun hprev hedge hfin hle tail,
        le_refl _, fun h => absurd rfl h⟩
    · obtain ⟨l₂, s₂, hc, hlen, _⟩ := ih x hx
      exact ⟨l₂, s₂, hc, by simp; omega, fun _ => by simp; omega⟩

theorem DChain.nodup {g : Graph} {dist prev : List Int} {s v : Nat}
    {l : List Nat} {sum : Int} (h : DChain g dist prev s v l sum) :
    l.Nodup := by
  induction h with
  | refl => exact List.nodup_singleton _
  | step hvs hvn hun hprev hedge hfin hle tail ih =>
    rename_i v u l sum
    refine List.nodup_cons.mpr ⟨?_, ih⟩
    intro hv
    obtain ⟨l₂, s₂, hc, hlen, _⟩ := tail.suffix_chain v hv
    obtain ⟨rfl, -⟩ :=
      hc.unique (DChain.step hvs hvn hun hprev hedge hfin hle tail)
    simp at hlen

theorem DChain.length_le {g : Graph} {dist prev : List Int} {s : Nat}
    (hs : s < g.n) {v : Nat} {l : List Nat} {sum : Int}
    (h : DChain g dist prev s v l sum) : l.length ≤ g.n := by
  have hsub : l ⊆ List.range g.n := by
    intro x hx
    exact List.mem_range.mpr (h.mem_lt hs x hx)
  have := (List.subperm_of_subset h.nodup hsub).length_le
  simpa using this

theorem DChain.stable {g : Graph} {dist prev : List Int} {s : Nat}
    {w : Nat} {nd pu : Int} {v : Nat} {l : List Nat} {sum : Int}
    (h : DChain g dist prev s v l sum) (hw : w ∉ l) :
    DChain g (dist.set w nd) (prev.set w pu) s v l sum := by
  induction h with
  | refl => exact DChain.refl
  | step hvs hvn hun hprev hedge hfin hle tail ih =>
    rename_i v u l sum
    have hwv : w ≠ v := fun h => hw (h ▸ List.mem_cons_self _ _)
    have hwl : w ∉ l := fun h => hw (List.mem_cons_of_mem _ h)
    have hwu : w ≠ u := fun h => hwl (h ▸ tail.mem_head)
    exact DChain.step hvs hvn hun
      (by rw [getD_set_ne _ _ _ _ _ hwv]; exact hprev)
      hedge
      (by rw [getD_set_ne _ _ _ _ _ hwv]; exact hfin)
      (by rw [getD_set_ne _ _ _ _ _ hwv, getD_set_ne _ _ _ _ _ hwu]; exact hle)
      (ih hwl)

theorem DChain.telescope_ge {g : Graph} {dist prev : List Int} {s v : Nat}
    {l : List Nat} {sum : Int} (h : DChain g dist prev s v l sum) :
    sum + dist.getD s 0 ≤ dist.getD v 0 := by
  induction h with
  | refl => omega
  | step hvs hvn hun hprev hedge hfin hle tail ih => omega

theorem DChain.telescope_le {g : Graph} {dist prev : List Int} {s : Nat}
    (hnn : NonNeg g)
    (hb : ∀ x < g.n, 0 ≤ dist.getD x 0 ∧ dist.getD x 0 ≤ INT_MAX)
    (hrelall : ∀ u < g.n, dist.getD u 0 ≠ INT_MAX →
      ∀ w < g.n, GraphGet g u w ≠ -1 →
        dist.getD w 0 ≤ dist.getD u 0 + GraphGet g u w)
    {v : Nat} {l : List Nat} {sum : Int}
    (h : DChain g dist prev s v l sum) :
    dist.getD v 0 ≤ sum + dist.getD s 0 := by
  induction h with
  | refl => omega
  | step hvs hvn hun hprev hedge hfin hle tail ih =>
    rename_i v u l sum
    have hc := cost_nonneg g hnn u v hedge
    have hvb := (hb v hvn).2
    have hufin : dist.getD u 0 ≠ INT_MAX := by omega
    have := hrelall u hun hufin v hvn hedge
    omega

theorem DChain.toPrevPath {g : Graph} {dist prev : List Int} {s v : Nat}
    {l : List Nat} {sum : Int} (h : DChain g dist prev s v l sum) :
    PrevPath g prev s v l sum := by
  induction h with
  | refl => exact PrevPath.refl
  | step hvs hvn hun hprev hedge hfin hle tail ih =>
    exact PrevPath.step hvs hprev hedge ih

theorem DChain.update {g : Graph} {dist prev : List Int} {s : Nat}
    {j : Nat} {nd pu : Int}
    (hjl : j < dist.length)
    (hnd : nd < dist.getD j 0)
    (hCj : ∃ lj sj, DChain g (dist.set j nd) (prev.set j pu) s j lj sj) :
    ∀ {w : Nat} {l : List Nat} {sum : Int}, DChain g dist prev s w l sum →
      ∃ l₂ s₂, DChain g (dist.set j nd) (prev.set j pu) s w l₂ s₂ := by
  intro w l sum h
  induction h with
  | refl => exact ⟨[s], 0, DChain.refl⟩
  | step hvs hvn hun hprev hedge hfin hle tail ih =>
    rename_i w u l sum
    by_cases hwj : w = j
    · subst hwj; exact hCj
    · obtain ⟨l₂, s₂, hc⟩ := ih
      by_cases huj : u = j
      · subst huj
        refine ⟨_, _, DChain.step hvs hvn hun ?_ hedge ?_ ?_ hc⟩
        · rw [getD_set_ne _ _ _ _ _ (fun h => hwj h.symm)]; exact hprev
        · rw [getD_set_ne _ _ _ _ _ (fun h => hwj h.symm)]; exact hfin
        · rw [getD_set_ne _ _ _ _ _ (fun h => hwj h.symm),
            getD_set_self _ _ _ _ hjl]
          omega
      · refine ⟨_, _, DChain.step hvs hvn hun ?_ hedge ?_ ?_ hc⟩
        · rw [getD_set_ne _ _ _ _ _ (fun h => hwj h.symm)]; exact hprev
        · rw [getD_set_ne _ _ _ _ _ (fun h => hwj h.symm)]; exact hfin
        · rw [getD_set_ne _ _ _ _ _ (fun h => hwj h.symm),
            getD_set_ne _ _ _ _ _ (fun h => huj h.symm)]
          exact hle

end ChainTheory

section Preservation

theorem innerInv_relaxStep (g : Graph) (s u j : Nat) (st : DState)
    (hnn : NonNeg g) (hs : s < g.n) (hj : j < g.n)
    (h : InnerInv g s u j st) :
    InnerInv g s u (j + 1) (relaxStep g u j st) := by
  by_cases hedge : GraphGet g u j ≠ -1
  case neg =>
    rw [relaxStep, if_neg hedge]
    exact { h with
      hupart := by
        intro x hx hex
        rcases Nat.lt_succ_iff_lt_or_eq.mp hx with hx | rfl
        · exact h.hupart x hx hex
        · exact absurd hex hedge }
  case pos =>
    by_cases hlt : st.dist.getD u 0 + GraphGet g u j < st.dist.getD j 0
    case neg =>
      rw [relaxStep, if_pos hedge, if_neg hlt]
      exact { h with
        hupart := by
          intro x hx hex
          rcases Nat.lt_succ_iff_lt_or_eq.mp hx with hx | rfl
          · exact h.hupart x hx hex
          · omega }
    case pos =>
      rw [relaxStep, if_pos hedge, if_pos hlt]
      have hc0 : 0 ≤ GraphGet g u j := cost_nonneg g hnn u j hedge
      have huj : u ≠ j := by
        intro he; rw [he] at hlt hc0; omega
      have hdu0 : 0 ≤ st.dist.getD u 0 := (h.hb u h.hun).1
      have hjmax : st.dist.getD j 0 ≤ INT_MAX := (h.hb j hj).2
      have hjs : j ≠ s := by
        intro he; rw [he] at hlt hc0; rw [h.hs0] at hlt; omega
      have hjdl : j < st.dist.length := h.hdl ▸ hj
      have hjpl : j < st.previous_node.length := h.hpl ▸ hj
      set nd := st.dist.getD u 0 + GraphGet g u j with hnd_def
      have hndmax : nd ≠ INT_MAX := by omega
      set q1 := if st.q.contains j then st.q.erase j else st.q with hq1_def
      have hq1_sub : ∀ w ∈ q1, w ∈ st.q := by
        intro w hw
        rw [hq1_def] at hw
        split at hw
        · exact List.mem_of_mem_erase hw
        · exact hw
      have hq1_iff : ∀ w, w ≠ j → (w ∈ q1 ↔ w ∈ st.q) := by
        intro w hwj
        rw [hq1_def]
        split
        · exact List.mem_erase_of_ne hwj
        · exact Iff.rfl
      have hjq1 : j ∉ q1 := by
        intro hmem
        rw [hq1_def] at hmem
        revert hmem
        split
        · exact h.hnd.not_mem_erase
        · rename_i hct
          intro hmem
          exact hct (List.elem_iff.mpr hmem)
      have hq1_nodup : q1.Nodup := by
        rw [hq1_def]; split
        · exact h.hnd.erase j
        · exact h.hnd
      have hreachj : Reach g s j :=
        Relation.ReflTransGen.tail h.hureach ⟨hj, hedge⟩
      -- the rebuilt predecessor chain rooted at the updated vertex `j`
      have hCj : ∃ lj sj,
          DChain g (st.dist.set j nd) (st.previous_node.set j (Int.ofNat u))
            s j lj sj := by
        by_cases hus : u = s
        · subst hus
          refine ⟨_, _, DChain.step hjs hj h.hun ?_ hedge ?_ ?_ DChain.refl⟩
          · rw [getD_set_self _ _ _ _ hjpl]
          · rw [getD_set_self _ _ _ _ hjdl]; exact hndmax
          · rw [getD_set_ne _ _ _ _ _ hjs, getD_set_self _ _ _ _ hjdl]
        · obtain ⟨lu, su, hcu⟩ := h.hchain u h.hun h.hufin hus
          have hjlu : j ∉ lu := by
            intro hmem
            have := hcu.dist_le_head hnn j hmem
            omega
          refine ⟨_, _, DChain.step hjs hj h.hun ?_ hedge ?_ ?_
            (hcu.stable hjlu)⟩
          · rw [getD_set_self _ _ _ _ hjpl]
          · rw [getD_set_self _ _ _ _ hjdl]; exact hndmax
          · rw [getD_set_ne _ _ _ _ _ (fun he => huj he.symm),
              getD_set_self _ _ _ _ hjdl]
      refine
        { hdl := by simpa using h.hdl
          hpl := by simpa using h.hpl
          hqlt := ?_
          hnd := ?_
          hb := ?_
          hs0 := by rw [getD_set_ne _ _ _ _ _ hjs]; exact h.hs0
          hps := by rw [getD_set_ne _ _ _ _ _ hjs]; exact h.hps
          hrelne := ?_
          hchain := ?_
          hunreach := ?_
          hqfin := ?_
          hqreach := ?_
          hun := h.hun
          hufin := by
            rw [getD_set_ne _ _ _ _ _ (fun he => huj he.symm)]
            exact h.hufin
          hureach := h.hureach
          hunotq := ?_
          hupart := ?_ }
      · -- hqlt
        intro w hw
        rcases List.mem_cons.mp hw with rfl | hw
        · exact hj
        · exact h.hqlt w (hq1_sub w hw)
      · -- hnd
        exact List.nodup_cons.mpr ⟨hjq1, hq1_nodup⟩
      · -- hb
        intro w hw
        by_cases hwj : w = j
        · subst hwj
          rw [getD_set_self _ _ _ _ hjdl]
          omega
        · rw [getD_set_ne _ _ _ _ _ (fun he => hwj he.symm)]
          exact h.hb w hw
      · -- hrelne
        intro w hw hwu hwq hwfin x hx hex
        have hwj : w ≠ j := by
          intro he; subst he
          exact hwq (List.mem_cons_self _ _)
        have hwq' : w ∉ st.q := by
          intro hmem
          exact hwq (List.mem_cons_of_mem _ ((hq1_iff w hwj).mpr hmem))
        rw [getD_set_ne _ _ _ _ _ (fun he => hwj he.symm)] at hwfin ⊢
        have hold := h.hrelne w hw hwu hwq' hwfin x hx hex
        by_cases hxj : x = j
        · subst hxj
          rw [getD_set_self _ _ _ _ hjdl]
          omega
        · rw [getD_set_ne _ _ _ _ _ (fun he => hxj he.symm)]
          exact hold
      · -- hchain
        intro w hw hwfin hws
        by_cases hwj : w = j
        · subst hwj; exact hCj
        · rw [getD_set_ne _ _ _ _ _ (fun he => hwj he.symm)] at hwfin
          obtain ⟨l, sum, hcw⟩ := h.hchain w hw hwfin hws
          exact DChain.update hjdl hlt hCj hcw
      · -- hunreach
        intro w hw hwr
        have hwj : w ≠ j := by
          intro he; subst he; exact hwr hreachj
        obtain ⟨hd, hp, hq⟩ := h.hunreach w hw hwr
        refine ⟨?_, ?_, ?_⟩
        · rw [getD_set_ne _ _ _ _ _ (fun he => hwj he.symm)]; exact hd
        · rw [getD_set_ne _ _ _ _ _ (fun he => hwj he.symm)]; exact hp
        · intro hmem
          rcases List.mem_cons.mp hmem with he | hmem
          · exact hwj he
          · exact hq (hq1_sub w hmem)
      · -- hqfin
        intro w hw
        rcases List.mem_cons.mp hw with rfl | hw
        · rw [getD_set_self _ _ _ _ hjdl]; exact hndmax
        · have hwj : w ≠ j := fun he => hjq1 (he ▸ hw)
          rw [getD_set_ne _ _ _ _ _ (fun he => hwj he.symm)]
          exact h.hqfin w (hq1_sub w hw)
      · -- hqreach
        intro w hw
        rcases List.mem_cons.mp hw with rfl | hw
        · exact hreachj
        · exact h.hqreach w (hq1_sub w hw)
      · -- hunotq
        intro hmem
        rcases List.mem_cons.mp hmem with he | hmem
        · exact huj he
        · exact h.hunotq ((hq1_iff u huj).mp hmem)
      · -- hupart
        intro x hx hex
        rw [getD_set_ne _ _ _ _ _ (fun he => huj he.symm)]
        rcases Nat.lt_succ_iff_lt_or_eq.mp hx with hx | rfl
        · have hxj : x ≠ j := by omega
          rw [getD_set_ne _ _ _ _ _ (fun he => hxj he.symm)]
          exact h.hupart x hx hex
        · rw [getD_set_self _ _ _ _ hjdl]

theorem innerInv_relaxLoop (g : Graph) (s u : Nat) (hnn : NonNeg g)
    (hs : s < g.n) :
    ∀ (k j : Nat) (st : DState), j + k ≤ g.n → InnerInv g s u j st →
      InnerInv g s u (j + k) (relaxLoop g u k j st) := by
  intro k
  induction k with
  | zero => intro j st _ h; exact h
  | succ k ih =>
    intro j st hle h
    have hj : j < g.n := by omega
    have h1 := innerInv_relaxStep g s u j st hnn hs hj h
    have h2 := ih (j + 1) _ (by omega) h1
    have he : j + (k + 1) = (j + 1) + k := by omega
    rw [he]
    simpa only [relaxLoop] using h2

/-- Extracting the minimum frontier member re-establishes the inner
invariant for the relaxation sweep that follows. -/
theorem innerInv_ofPop (g : Graph) (s : Nat) (st : DState)
    (hq : st.q ≠ []) (h : LoopInv g s st) :
    InnerInv g s (popMin st.dist st.q) 0
      { st with q := st.q.erase (popMin st.dist st.q) } := by
  have humem : popMin st.dist st.q ∈ st.q := popMin_mem _ _ hq
  refine
    { hdl := h.hdl
      hpl := h.hpl
      hqlt := fun v hv => h.hqlt v (List.mem_of_mem_erase hv)
      hnd := h.hnd.erase _
      hb := h.hb
      hs0 := h.hs0
      hps := h.hps
      hrelne := ?_
      hchain := h.hchain
      hunreach := ?_
      hqfin := fun v hv => h.hqfin v (List.mem_of_mem_erase hv)
      hqreach := fun v hv => h.hqreach v (List.mem_of_mem_erase hv)
      hun := h.hqlt _ humem
      hufin := h.hqfin _ humem
      hureach := h.hqreach _ humem
      hunotq := h.hnd.not_mem_erase
      hupart := fun x hx _ => absurd hx (Nat.not_lt_zero x) }
  · intro w hw hwu hwq hwfin x hx hex
    have hwq' : w ∉ st.q := fun hmem =>
      hwq ((List.mem_erase_of_ne hwu).mpr hmem)
    exact h.hrel w hw hwq' hwfin x hx hex
  · intro v hv hvr
    obtain ⟨hd, hp, hqv⟩ := h.hunreach v hv hvr
    exact ⟨hd, hp, fun hmem => hqv (List.mem_of_mem_erase hmem)⟩

/-- One full iteration of the `while` loop preserves the loop invariant. -/
theorem loopInv_outerStep (g : Graph) (s : Nat) (st : DState)
    (hnn : NonNeg g) (hs : s < g.n) (hq : st.q ≠ [])
    (h : LoopInv g s st) :
    LoopInv g s (relaxLoop g (popMin st.dist st.q) g.n 0
      { st with q := st.q.erase (popMin st.dist st.q) }) := by
  have h0 := innerInv_ofPop g s st hq h
  have hfin := innerInv_relaxLoop g s (popMin st.dist st.q) hnn hs g.n 0 _
    (by omega) h0
  refine
    { hdl := hfin.hdl
      hpl := hfin.hpl
      hqlt := hfin.hqlt
      hnd := hfin.hnd
      hb := hfin.hb
      hs0 := hfin.hs0
      hps := hfin.hps
      hrel := ?_
      hchain := hfin.hchain
      hunreach := hfin.hunreach
      hqfin := hfin.hqfin
      hqreach := hfin.hqreach }
  intro w hw hwq hwfin x hx hex
  by_cases hwu : w = popMin st.dist st.q
  · subst hwu
    exact hfin.hupart x (by omega) hex
  · exact hfin.hrelne w hw hwu hwq hwfin x hx hex

end Preservation

section Termination

theorem map_toNat_sum_set (l : List Int) :
    ∀ (i : Nat) (x : Int), i < l.length →
      ((l.set i x).map Int.toNat).sum + (l.getD i 0).toNat =
        (l.map Int.toNat).sum + x.toNat := by
  induction l with
  | nil => intro i x h; simp at h
  | cons a t ih =>
    intro i x h
    cases i with
    | zero =>
      simp only [List.set, List.map_cons, List.sum_cons, List.getD_cons_zero]
      omega
    | succ i =>
      simp only [List.set, List.map_cons, List.sum_cons, List.getD_cons_succ]
      have := ih i x (by simpa using h)
      omega

theorem meas_relaxStep_le (g : Graph) (s u j : Nat) (st : DState)
    (hnn : NonNeg g) (hj : j < g.n) (h : InnerInv g s u j st) :
    meas (relaxStep g u j st) ≤ meas st := by
  by_cases hedge : GraphGet g u j ≠ -1
  case neg => rw [relaxStep, if_neg hedge]
  case pos =>
    by_cases hlt : st.dist.getD u 0 + GraphGet g u j < st.dist.getD j 0
    case neg => rw [relaxStep, if_pos hedge, if_neg hlt]
    case pos =>
      rw [relaxStep, if_pos hedge, if_pos hlt]
      have hc0 : 0 ≤ GraphGet g u j := cost_nonneg g hnn u j hedge
      have hdu0 : 0 ≤ st.dist.getD u 0 := (h.hb u h.hun).1
      have hjdl : j < st.dist.length := h.hdl ▸ hj
      have hkey := map_toNat_sum_set st.dist j
        (st.dist.getD u 0 + GraphGet g u j) hjdl
      have hq1 : (if st.q.contains j then st.q.erase j else st.q).length ≤
          st.q.length := by
        split
        · exact (List.erase_sublist j st.q).length_le
        · exact le_refl _
      simp only [meas, phi, List.length_cons]
      omega

theorem meas_relaxLoop_le (g : Graph) (s u : Nat) (hnn : NonNeg g)
    (hs : s < g.n) :
    ∀ (k j : Nat) (st : DState), j + k ≤ g.n → InnerInv g s u j st →
      meas (relaxLoop g u k j st) ≤ meas st := by
  intro k
  induction k with
  | zero => intro j st _ _; exact le_refl _
  | succ k ih =>
    intro j st hle h
    have hj : j < g.n := by omega
    have h1 := innerInv_relaxStep g s u j st hnn hs hj h
    have h2 := ih (j + 1) _ (by omega) h1
    have h3 := meas_relaxStep_le g s u j st hnn hj h
    calc meas (relaxLoop g u (k + 1) j st) =
        meas (relaxLoop g u k (j + 1) (relaxStep g u j st)) := by
          simp only [relaxLoop]
      _ ≤ meas (relaxStep g u j st) := h2
      _ ≤ meas st := h3

theorem meas_outerStep_lt (g : Graph) (s : Nat) (st : DState)
    (hnn : NonNeg g) (hs : s < g.n) (hq : st.q ≠ [])
    (h : LoopInv g s st) :
    meas (relaxLoop g (popMin st.dist st.q) g.n 0
      { st with q := st.q.erase (popMin st.dist st.q) }) < meas st := by
  have h0 := innerInv_ofPop g s st hq h
  have h1 := meas_relaxLoop_le g s (popMin st.dist st.q) hnn hs g.n 0 _
    (by omega) h0
  have humem : popMin st.dist st.q ∈ st.q := popMin_mem _ _ hq
  have hlen : (st.q.erase (popMin st.dist st.q)).length =
      st.q.length - 1 := List.length_erase_of_mem humem
  have hpos : 1 ≤ st.q.length := by
    cases hh : st.q with
    | nil => exact absurd hh hq
    | cons a t => simp [hh]
  have hm : meas { st with q := st.q.erase (popMin st.dist st.q) } <
      meas st := by
    simp only [meas, phi]
    omega
  omega

theorem dijkstraLoop_post (g : Graph) (s : Nat) (hnn : NonNeg g)
    (hs : s < g.n) :
    ∀ (fuel : Nat) (st : DState), LoopInv g s st → meas st < fuel →
      LoopInv g s (dijkstraLoop g fuel st) ∧
        (dijkstraLoop g fuel st).q = [] := by
  intro fuel
  induction fuel with
  | zero => intro st _ hm; omega
  | succ fuel ih =>
    intro st hinv hm
    cases hq : st.q with
    | nil =>
      rw [dijkstraLoop, hq]
      exact ⟨hinv, hq⟩
    | cons x xs =>
      rw [dijkstraLoop, hq]
      have hqne : st.q ≠ [] := by rw [hq]; exact List.cons_ne_nil x xs
      have hstep := loopInv_outerStep g s st hnn hs hqne hinv
      have hmeas := meas_outerStep_lt g s st hnn hs hqne hinv
      rw [hq] at hstep hmeas
      exact ih _ hstep (by omega)

theorem loopInv_init (g : Graph) (s : Nat) (hs : s < g.n) :
    LoopInv g s (dijkstraInit g.n s) := by
  have hIM : INT_MAX = 2147483647 := rfl
  have hlen : (List.replicate g.n INT_MAX).length = g.n := by simp
  have hsl : s < (List.replicate g.n INT_MAX).length := by omega
  have hdist_s : ((List.replicate g.n INT_MAX).set s 0).getD s 0 = 0 :=
    getD_set_self _ _ _ _ hsl
  have hdist_ne : ∀ v, v ≠ s → v < g.n →
      ((List.replicate g.n INT_MAX).set s 0).getD v 0 = INT_MAX := by
    intro v hv hvn
    rw [getD_set_ne _ _ _ _ _ (fun he => hv he.symm)]
    exact getD_replicate _ _ _ _ hvn
  refine
    { hdl := by simp [dijkstraInit]
      hpl := by simp [dijkstraInit]
      hqlt := ?_
      hnd := List.nodup_singleton s
      hb := ?_
      hs0 := hdist_s
      hps := getD_replicate _ _ _ _ hs
      hrel := ?_
      hchain := ?_
      hunreach := ?_
      hqfin := ?_
      hqreach := ?_ }
  · intro v hv
    rcases List.mem_singleton.mp hv with rfl
    exact hs
  · intro v hv
    simp only [dijkstraInit]
    by_cases hvs : v = s
    · subst hvs; rw [hdist_s]; omega
    · rw [hdist_ne v hvs hv]; omega
  · intro w hw hwq hwfin x hx hex
    simp only [dijkstraInit] at hwq hwfin
    by_cases hws : w = s
    · exact absurd (hws ▸ List.mem_singleton_self s) hwq
    · exact absurd (hdist_ne w hws hw) hwfin
  · intro v hv hvfin hvs
    simp only [dijkstraInit] at hvfin
    exact absurd (hdist_ne v hvs hv) hvfin
  · intro v hv hvr
    have hvs : v ≠ s := fun he => hvr (he ▸ Relation.ReflTransGen.refl)
    simp only [dijkstraInit]
    refine ⟨hdist_ne v hvs hv, getD_replicate _ _ _ _ hv, ?_⟩
    intro hmem
    exact hvs (List.mem_singleton.mp hmem)
  · intro v hv
    simp only [dijkstraInit] at hv ⊢
    rcases List.mem_singleton.mp hv with rfl
    rw [hdist_s]
    omega
  · intro v hv
    simp only [dijkstraInit] at hv
    rcases List.mem_singleton.mp hv with rfl
    exact Relation.ReflTransGen.refl

theorem meas_init_lt (g : Graph) (s : Nat) (hs : s < g.n) :
    meas (dijkstraInit g.n s) < dijkstraFuel g := by
  have hlen : (List.replicate g.n INT_MAX).length = g.n := by simp
  have hkey := map_toNat_sum_set (List.replicate g.n INT_MAX) s 0
    (by omega)
  have hrep : ((List.replicate g.n INT_MAX).map Int.toNat).sum =
      g.n * 2147483647 := by
    have he : (List.replicate g.n INT_MAX).map Int.toNat =
        List.replicate g.n 2147483647 := by
      rw [List.map_replicate]
      rfl
    rw [he, List.sum_replicate, smul_eq_mul]
  have hgd : (List.replicate g.n INT_MAX).getD s 0 = INT_MAX :=
    getD_replicate _ _ _ _ hs
  rw [hgd] at hkey
  have hIM : INT_MAX.toNat = 2147483647 := rfl
  simp only [meas, phi, dijkstraInit, dijkstraFuel, List.length_cons,
    List.length_nil]
  omega

/-- Shared postcondition: after `dijkstra`, the loop invariant holds and the
frontier has been emptied. -/
theorem dijkstra_post (g : Graph) (s : Nat) (hnn : NonNeg g) (hs : s < g.n) :
    LoopInv g s (dijkstra g s) ∧ (dijkstra g s).q = [] :=
  dijkstraLoop_post g s hnn hs (dijkstraFuel g) (dijkstraInit g.n s)
    (loopInv_init g s hs) (meas_init_lt g s hs)

end Termination

section Claims

/-- Claim C1: for every graph with non-negative edge costs, every valid
source `s`, and every vertex `v` with `dist[v] < infinity` and `v ≠ s` after
the computation, following `previous_node` backward from `v` reaches `s` in
at most `vertex_count` steps (the chain visits at most `vertex_count`
vertices), and the edge costs along that chain sum exactly to `dist[v]`. -/
theorem dijkstra_prev_chain_exact (g : Graph) (s : Nat)
    (hWF : g.WF) (hnn : NonNeg g) (hs : s < g.n) (v : Nat) (hv : v < g.n)
    (hfin : (dijkstra g s).dist.getD v 0 ≠ INT_MAX) (hvs : v ≠ s) :
    ∃ (l : List Nat) (sum : Int),
      PrevPath g (dijkstra g s).previous_node s v l sum ∧
      l.length ≤ g.n ∧ sum = (dijkstra g s).dist.getD v 0 := by
  obtain ⟨hinv, hqe⟩ := dijkstra_post g s hnn hs
  obtain ⟨l, sum, hc⟩ := hinv.hchain v hv hfin hvs
  have hge := hc.telescope_ge
  have hrelall : ∀ u < g.n, (dijkstra g s).dist.getD u 0 ≠ INT_MAX →
      ∀ w < g.n, GraphGet g u w ≠ -1 →
        (dijkstra g s).dist.getD w 0 ≤
          (dijkstra g s).dist.getD u 0 + GraphGet g u w := by
    intro u hu hufin w hw hew
    exact hinv.hrel u hu (by rw [hqe]; exact List.not_mem_nil u) hufin w hw hew
  have hle := hc.telescope_le hnn hinv.hb hrelall
  refine ⟨l, sum, hc.toPrevPath, hc.length_le hs, ?_⟩
  rw [hinv.hs0] at hge hle
  omega

/-- Witness for C1 on spec scenario A (`0→1` cost 1, `1→2` cost 1, `0→2`
cost 5): the chain from vertex 2 reaches source 0 and sums to `dist[2]`. -/
theorem dijkstra_prev_chain_exact_witness :
    ∃ (l : List Nat) (sum : Int),
      PrevPath ⟨3, [-1, 1, 5, -1, -1, 1, -1, -1, -1]⟩
        (dijkstra ⟨3, [-1, 1, 5, -1, -1, 1, -1, -1, -1]⟩ 0).previous_node
        0 2 l sum ∧
      l.length ≤ 3 ∧
      sum = (dijkstra ⟨3, [-1, 1, 5, -1, -1, 1, -1, -1, -1]⟩ 0).dist.getD 2 0 :=
  dijkstra_prev_chain_exact ⟨3, [-1, 1, 5, -1, -1, 1, -1, -1, -1]⟩ 0
    (by decide) (by decide) (by decide) 2 (by decide) (by decide) (by decide)

/-- Claim C2: after the computation, every vertex `v` unreachable from the
source has `dist[v]` equal to the infinity sentinel and `previous_node[v]`
equal to the "none" value `-1`. -/
theorem dijkstra_unreachable_inf (g : Graph) (s : Nat)
    (hWF : g.WF) (hnn : NonNeg g) (hs : s < g.n) (v : Nat) (hv : v < g.n)
    (hur : ¬ Reach g s v) :
    (dijkstra g s).dist.getD v 0 = INT_MAX ∧
    (dijkstra g s).previous_node.getD v 0 = -1 := by
  obtain ⟨hinv, -⟩ := dijkstra_post g s hnn hs
  obtain ⟨h1, h2, -⟩ := hinv.hunreach v hv hur
  exact ⟨h1, h2⟩

/-- Witness for C2 on spec scenario C (two vertices, no edges): vertex 1 is
unreachable and keeps the sentinel values. -/
theorem dijkstra_unreachable_inf_witness :
    (dijkstra ⟨2, [-1, -1, -1, -1]⟩ 0).dist.getD 1 0 = INT_MAX ∧
    (dijkstra ⟨2, [-1, -1, -1, -1]⟩ 0).previous_node.getD 1 0 = -1 :=
  dijkstra_unreachable_inf ⟨2, [-1, -1, -1, -1]⟩ 0
    (by decide) (by decide) (by decide) 1 (by decide)
    (by
      intro h
      rcases Relation.ReflTransGen.cases_head h with he | ⟨c, ⟨hc2, hne⟩, -⟩
      · exact absurd he (by decide)
      · have hc01 : c = 0 ∨ c = 1 := by
          have : c < 2 := hc2
          omega
        rcases hc01 with rfl | rfl
        · exact hne (by decide)
        · exact hne (by decide))

/-- Claim C3: after the computation, `dist[s] = 0` and
`previous_node[s] = -1` (the "none" value). -/
theorem dijkstra_source_zero (g : Graph) (s : Nat)
    (hWF : g.WF) (hnn : NonNeg g) (hs : s < g.n) :
    (dijkstra g s).dist.getD s 0 = 0 ∧
    (dijkstra g s).previous_node.getD s 0 = -1 := by
  obtain ⟨hinv, -⟩ := dijkstra_post g s hnn hs
  exact ⟨hinv.hs0, hinv.hps⟩

/-- Witness for C3 on spec scenario A. -/
theorem dijkstra_source_zero_witness :
    (dijkstra ⟨3, [-1, 1, 5, -1, -1, 1, -1, -1, -1]⟩ 0).dist.getD 0 0 = 0 ∧
    (dijkstra ⟨3, [-1, 1, 5, -1, -1, 1, -1, -1, -1]⟩ 0).previous_node.getD
      0 0 = -1 :=
  dijkstra_source_zero ⟨3, [-1, 1, 5, -1, -1, 1, -1, -1, -1]⟩ 0
    (by decide) (by decide) (by decide)

/-- Claim C4: at termination, every real edge `(u, v)` with cost `c`
satisfies the relaxation invariant `dist[v] ≤ dist[u] + c`. -/
theorem dijkstra_relaxation (g : Graph) (s : Nat)
    (hWF : g.WF) (hnn : NonNeg g) (hs : s < g.n) (u v : Nat)
    (hu : u < g.n) (hv : v < g.n) (hedge : GraphGet g u v ≠ -1) :
    (dijkstra g s).dist.getD v 0 ≤
      (dijkstra g s).dist.getD u 0 + GraphGet g u v := by
  obtain ⟨hinv, hqe⟩ := dijkstra_post g s hnn hs
  by_cases hufin : (dijkstra g s).dist.getD u 0 = INT_MAX
  · have hc0 := cost_nonneg g hnn u v hedge
    have hvb := (hinv.hb v hv).2
    rw [hufin]
    omega
  · exact hinv.hrel u hu (by rw [hqe]; exact List.not_mem_nil u) hufin
      v hv hedge

/-- Witness for C4 on spec scenario A, edge `(0, 2)` of cost 5. -/
theorem dijkstra_relaxation_witness :
    (dijkstra ⟨3, [-1, 1, 5, -1, -1, 1, -1, -1, -1]⟩ 0).dist.getD 2 0 ≤
      (dijkstra ⟨3, [-1, 1, 5, -1, -1, 1, -1, -1, -1]⟩ 0).dist.getD 0 0 +
        GraphGet ⟨3, [-1, 1, 5, -1, -1, 1, -1, -1, -1]⟩ 0 2 :=
  dijkstra_relaxation ⟨3, [-1, 1, 5, -1, -1, 1, -1, -1, -1]⟩ 0
    (by decide) (by decide) (by decide) 0 2 (by decide) (by decide)
    (by decide)

/-- Claim C5 counterexample: with `vertex_count = 2`, no edges, and requested
source `2` (equal to `vertex_count`, hence out of range), the program does
not fail: `main` clamps the source to `0`, `dijkstra` runs to completion, and
both output tables differ from their pre-call contents (the all-zero tables
produced by `resize`), so the tables are mutated. -/
theorem mainRun_counterexample :
    (mainRun ⟨2, [-1, -1, -1, -1]⟩ 2).dist ≠ (resizedTables 2).1 ∧
    (mainRun ⟨2, [-1, -1, -1, -1]⟩ 2).previous_node ≠ (resizedTables 2).2 := by
  decide

/-- Claim C5 (amended): an out-of-range source value does not fail with
`InvalidSource`; `main` replaces it by `0` (printing only a diagnostic) and
invokes `dijkstra` with source `0`, which mutates both tables as usual. -/
theorem mainRun_out_of_range (g : Graph) (src : Int)
    (h : src < 0 ∨ (g.n : Int) ≤ src) :
    mainRun g src = dijkstra g 0 := by
  rw [mainRun, selectSource, if_pos h]

/-- Witness for the amended C5: requested source 5 on a 1-vertex graph. -/
theorem mainRun_out_of_range_witness :
    mainRun ⟨1, [-1]⟩ 5 = dijkstra ⟨1, [-1]⟩ 0 :=
  mainRun_out_of_range ⟨1, [-1]⟩ 5 (Or.inr (by decide))

/-- Claim C6 counterexample: after `create(2)` (the `resize` in `main`),
entry 0 holds `0`, not the "no edge" sentinel `-1`; likewise, loading a
truncated stream (one value for a 2-vertex graph) leaves the unread entry 3
holding `0`, not `-1`. -/
theorem createGraph_counterexample :
    (createGraph 2).getD 0 (-1) = 0 ∧ ¬ (createGraph 2).getD 0 (-1) = -1 ∧
    (loadGraph 2 [7]).getD 3 (-1) = 0 ∧
    ¬ (loadGraph 2 [7]).getD 3 (-1) = -1 := by
  decide

/-- Claim C6 (amended): `vector::resize` value-initialises every one of the
`vertex_count * vertex_count` entries to `0` — a genuine zero-cost edge
value, not the "no edge" sentinel `-1` — and if the stream ends before all
entries are read, every unread entry still holds `0`. -/
theorem createGraph_loadGraph_zero (n i : Nat) (vals : List Int)
    (hi : i < n * n) (hv : vals.length ≤ i) :
    (createGraph n).getD i (-1) = 0 ∧ (loadGraph n vals).getD i (-1) = 0 := by
  refine ⟨createGraph_getD n i hi, ?_⟩
  rw [loadGraph, loadAux_getD_of_le vals _ 0 i _ _ hv]
  exact createGraph_getD n i hi

/-- Witness for the amended C6: a 2-vertex graph loaded from a one-value
stream leaves flat entry 3 zero-initialised. -/
theorem createGraph_loadGraph_zero_witness :
    (createGraph 2).getD 3 (-1) = 0 ∧ (loadGraph 2 [7]).getD 3 (-1) = 0 :=
  createGraph_loadGraph_zero 2 3 [7] (by decide) (by decide)

/-- Claim C7 counterexample: on a 2-vertex graph, `GraphGet(0, 3)` — with
column index `3` outside `[0, 2)` — does not fail with `IndexOutOfRange`; it
silently returns the stored cost `13` (the entry of cell `(1, 1)`), and the
corresponding `GraphSet(0, 3, 99)` silently overwrites that same cell. -/
theorem graphGet_counterexample :
    GraphGet ⟨2, [10, 11, 12, 13]⟩ 0 3 = 13 ∧
    (GraphSet ⟨2, [10, 11, 12, 13]⟩ 0 3 99).mat = [10, 11, 12, 99] := by
  decide

/-- Claim C7 (amended): `GraphGet`/`GraphSet` perform no bounds checking at
all: an index pair is mapped to the flat offset `u * vertex_count + v` and
the backing store is accessed there unconditionally, so any two pairs with
the same flat offset — in range or not — are indistinguishable (and an
offset beyond the store is undefined behaviour in the C++). -/
theorem graphGet_set_unchecked (g : Graph) (u v x y : Nat) (c : Int)
    (h : g.n * u + v = g.n * x + y) :
    GraphGet g u v = GraphGet g x y ∧ GraphSet g u v c = GraphSet g x y c := by
  rw [GraphGet, GraphGet, GraphSet, GraphSet, h]
  exact ⟨rfl, rfl⟩

/-- Witness for the amended C7: the out-of-range pair `(0, 3)` aliases the
in-range pair `(1, 1)` on a 2-vertex graph. -/
theorem graphGet_set_unchecked_witness :
    GraphGet ⟨2, [10, 11, 12, 13]⟩ 0 3 = GraphGet ⟨2, [10, 11, 12, 13]⟩ 1 1 ∧
    GraphSet ⟨2, [10, 11, 12, 13]⟩ 0 3 99 =
      GraphSet ⟨2, [10, 11, 12, 13]⟩ 1 1 99 :=
  graphGet_set_unchecked ⟨2, [10, 11, 12, 13]⟩ 0 3 1 1 99 (by decide)

/-- Claim C8: whenever two frontier members have equal `dist`, the one with
the smaller vertex index is extracted first (the extracted vertex has the
smallest index among minimum-distance members), and two runs of the
computation on identical graph and source produce identical `dist` and
`previous_node` tables. -/
theorem popMin_tiebreak_det :
    (∀ (dist : List Int) (q : List Nat) (v : Nat), q ≠ [] → v ∈ q →
      dist.getD v 0 = dist.getD (popMin dist q) 0 → popMin dist q ≤ v) ∧
    (∀ (g₁ g₂ : Graph) (s₁ s₂ : Nat), g₁ = g₂ → s₁ = s₂ →
      dijkstra g₁ s₁ = dijkstra g₂ s₂) := by
  constructor
  · intro dist q v hq hv heq
    have hnl := popMin_not_lt dist q v hv
    rw [ltDist_eq_false] at hnl
    omega
  · rintro g₁ g₂ s₁ s₂ rfl rfl
    rfl

/-- Witness for C8: with `dist = [0, 0]` and frontier `{1, 0}` the extracted
vertex is the smaller index 0. -/
theorem popMin_tiebreak_det_witness : popMin [0, 0] [1, 0] ≤ 1 :=
  popMin_tiebreak_det.1 [0, 0] [1, 0] 1 (by decide) (by decide) (by decide)

/-- Claim C9: for every graph with non-negative edge costs and valid source,
the computation terminates: the `while` loop empties the frontier within the
available fuel and the function runs to completion. -/
theorem dijkstra_terminates (g : Graph) (s : Nat)
    (hWF : g.WF) (hnn : NonNeg g) (hs : s < g.n) :
    (dijkstra g s).q = [] :=
  (dijkstra_post g s hnn hs).2

/-- Witness for C9 on spec scenario A. -/
theorem dijkstra_terminates_witness :
    (dijkstra ⟨3, [-1, 1, 5, -1, -1, 1, -1, -1, -1]⟩ 0).q = [] :=
  dijkstra_terminates ⟨3, [-1, 1, 5, -1, -1, 1, -1, -1, -1]⟩ 0
    (by decide) (by decide) (by decide)

/-- Claim C10: the relaxation candidate `dist[u] + edge_cost(u, v)` is
computed in fixed-width 32-bit signed arithmetic whose infinity sentinel
`INT_MAX` is the largest representable value; the computed candidate matches
exact arithmetic exactly when the sum stays strictly below `2^31`
(`2147483648`), and a sum reaching or exceeding that bound wraps modulo
`2^32` (`4294967296`) — in particular `INT_MAX + 1` wraps to `-2^31` rather
than saturating at `INT_MAX`. -/
theorem relaxCandidate_fixed_width :
    (∀ x : Int, -2147483648 ≤ x → x < 2147483648 → x ≤ INT_MAX) ∧
    (∀ du c : Int, 0 ≤ du → 0 ≤ c →
      (relaxCandidate du c = du + c ↔ du + c < 2147483648)) ∧
    (∀ du c : Int, 0 ≤ du → 0 ≤ c → 2147483648 ≤ du + c →
      du + c < 2147483648 + 4294967296 →
      relaxCandidate du c = du + c - 4294967296) ∧
    relaxCandidate INT_MAX 1 = -2147483648 := by
  have hIM : INT_MAX = 2147483647 := rfl
  refine ⟨?_, ?_, ?_, by decide⟩
  · intro x h1 h2
    omega
  · intro du c h1 h2
    unfold relaxCandidate wrap32
    omega
  · intro du c h1 h2 h3 h4
    unfold relaxCandidate wrap32
    omega

/-- Witness for C10: `3 + 4` is computed exactly, below the wrap bound. -/
theorem relaxCandidate_fixed_width_witness : relaxCandidate 3 4 = 3 + 4 :=
  (relaxCandidate_fixed_width.2.1 3 4 (by decide) (by decide)).mpr (by decide)

end Claims
